import Mathlib

/-!
# Verification of the easyslog handler (BlakeWilliams/easyslog)

A shallow embedding of the `easyslog` Go package: a `log/slog` handler that
builds a tree of attributes (`Attr`) from chained `WithAttrs` / `WithGroup`
calls and per-event attributes, prunes empty nodes, and hands the resulting
`Record` to a user-supplied `Formatter`.

Modelling conventions:

* `slog.Value` is modelled by `SVal`.  The kinds that matter to the code under
  verification are: the nil "any" value (`slog.AnyValue(nil)`), ordinary
  scalar values (ints, strings, bools), group values (`slog.KindGroup`), and
  lazy `slog.LogValuer` values (`slog.KindLogValuer`, modelled by `SVal.vlazy`,
  which `Resolve` unwraps).  `Value.Any() == nil` holds exactly for the nil
  "any" value: a group value yields a (possibly empty) typed `[]Attr`, and a
  `LogValuer` yields the (non-nil) valuer itself, so neither compares equal to
  the untyped `nil`.
* Go pointer structures are modelled functionally: the `Attr` tree is a pure
  tree (each node of the Go tree has a single parent, so in-place mutation at
  the node reached by `groupIndices` is functional update at that path).  A
  second, pointer-level model (`Heap`, further below) makes allocation and
  aliasing explicit; it is used for the clone-isolation property.
* Go panics (nil dereference of a `slog.Leveler`, out-of-range slice
  indexing) are modelled by `Option`/`none`.
* `prune` iterates with `for i, child := range a.Children` while calling
  `slices.Delete(a.Children, i, i+1)` inside the loop.  `range` captures the
  slice header (length) once, so the loop always performs `len` steps over the
  shared backing array.  After `d` deletions, slot `i` of the backing array
  holds the element originally at index `i + d` while `i < len(a.Children)`,
  and a cleared slot (a nil pointer, since Go 1.22 `slices.Delete` zeroes the
  vacated slots) once `i >= len(a.Children)`; reading a cleared slot makes
  `child.empty()` dereference nil and panic.  `pruneChildrenGo` reproduces
  exactly this index arithmetic.
-/

namespace Easyslog

/-- Model of `slog.Value` (the slog value kinds relevant to this package). -/
inductive SVal : Type where
  /-- `slog.AnyValue(nil)`: the nil/absent sentinel (`Value.Any() == nil`). -/
  | vnil : SVal
  /-- An integer scalar value. -/
  | vint : Int → SVal
  /-- A string scalar value. -/
  | vstr : String → SVal
  /-- A boolean scalar value. -/
  | vbool : Bool → SVal
  /-- A `slog.LogValuer` (lazy) value that resolves to the wrapped value.
  `Value.Any()` returns the valuer itself, which is not the untyped nil. -/
  | vlazy : SVal → SVal
  /-- A group value (`slog.KindGroup`) holding a list of `slog.Attr`s,
  each a key paired with a value. -/
  | vgroup : List (String × SVal) → SVal

/-- A `slog.Attr`: a key paired with a `slog.Value`. -/
abbrev SlogAttr : Type := String × SVal

namespace SVal

/-- `v.Kind() == slog.KindGroup`. -/
def isGroup : SVal → Bool
  | .vgroup _ => true
  | _ => false

/-- `v.Any() == nil`.  True only for the nil "any" value: group values box a
typed `[]Attr` slice and lazy values box the `LogValuer` interface value, and
a non-nil-typed interface value never compares equal to untyped nil. -/
def anyIsNil : SVal → Bool
  | .vnil => true
  | _ => false

/-- `v.Resolve()`: repeatedly unwraps `slog.LogValuer` values; every other
kind resolves to itself. -/
def resolve : SVal → SVal
  | .vlazy v => resolve v
  | v => v

/-- `v.Group()`: the attribute list of a group value (only called by the code
when `v.Kind() == slog.KindGroup`; other kinds give the empty list, matching
`slog`'s zero-value behaviour). -/
def group : SVal → List SlogAttr
  | .vgroup attrs => attrs
  | _ => []

end SVal

/-- A node of the easyslog attribute tree (`easyslog.Attr` in `attr.go`):
a key, a `slog.Value`, and the list of child nodes. -/
inductive Attr : Type where
  | mk (key : String) (value : SVal) (children : List Attr) : Attr

namespace Attr

/-- The key of the attribute. -/
def key : Attr → String
  | .mk k _ _ => k

/-- The value of the attribute. -/
def value : Attr → SVal
  | .mk _ v _ => v

/-- The child nodes of the attribute. -/
def children : Attr → List Attr
  | .mk _ _ cs => cs

@[simp] theorem key_mk (k : String) (v : SVal) (cs : List Attr) :
    (Attr.mk k v cs).key = k := rfl

@[simp] theorem value_mk (k : String) (v : SVal) (cs : List Attr) :
    (Attr.mk k v cs).value = v := rfl

@[simp] theorem children_mk (k : String) (v : SVal) (cs : List Attr) :
    (Attr.mk k v cs).children = cs := rfl

/-- `(a *Attr) empty()` from `attr.go`: a dead-end node, with a nil value and
no children. -/
def empty (a : Attr) : Bool :=
  a.value.anyIsNil && a.children.isEmpty

/-- `(a *Attr) IsGroup()` from `attr.go`. -/
def isGroupNode (a : Attr) : Bool :=
  !a.children.isEmpty

/-- Append a child node (`parent.Children = append(parent.Children, c)`). -/
def push (parent : Attr) (c : Attr) : Attr :=
  ⟨parent.key, parent.value, parent.children ++ [c]⟩

end Attr

theorem SVal.sizeOf_group_le (v : SVal) : sizeOf v.group ≤ sizeOf v := by
  cases v <;> simp [SVal.group]

mutual

/-- `parseValue(a slog.Attr, parent *Attr)` from `easyslog.go`:

* non-group attribute with `Value.Any() == nil`: discarded;
* non-group attribute: a leaf `&Attr{Key: a.Key, Value: a.Value.Resolve()}`
  is appended to the parent's children;
* group attribute with empty key: its members are parsed directly into the
  parent (the `groupAttr = parent`, `isSubgroup = false` path);
* group attribute with non-empty key: a fresh node
  `&Attr{Key: a.Key, Value: slog.AnyValue(nil), Children: []}` is populated
  recursively from the group members and appended to the parent only if it
  received at least one child. -/
def parseValue : SlogAttr → Attr → Attr
  | (k, v), parent =>
    if !v.isGroup && v.anyIsNil then parent
    else if !v.isGroup then parent.push ⟨k, v.resolve, []⟩
    else if k = "" then parseList v.group parent
    else
      let g := parseList v.group ⟨k, .vnil, []⟩
      if g.children.isEmpty then parent else parent.push g
termination_by a _ => sizeOf a.2 + 1
decreasing_by
  all_goals have := SVal.sizeOf_group_le v
  all_goals simp_wf
  all_goals omega

/-- The `for _, attr := range a.Value.Group() { parseValue(attr, groupAttr) }`
loop of `parseValue` (also the attribute loops of `WithAttrs` and `Handle`):
parse each attribute into the parent, left to right. -/
def parseList : List SlogAttr → Attr → Attr
  | [], parent => parent
  | a :: rest, parent => parseList rest (parseValue a parent)
termination_by as _ => sizeOf as
decreasing_by
  all_goals simp_wf
  all_goals cases a
  all_goals simp
  all_goals omega

end

theorem Attr.sizeOf_children_lt (a : Attr) : sizeOf a.children < sizeOf a := by
  cases a; simp [Attr.children]

mutual

/-- `prune(a *Attr)` from `easyslog.go`: remove the empty children of `a`,
recursively pruning the non-empty ones. -/
def prune (a : Attr) : Option Attr :=
  (pruneChildrenGo a.children 0 0).map fun cs => ⟨a.key, a.value, cs⟩
termination_by (sizeOf a, 0)
decreasing_by
  simp_wf
  exact Prod.Lex.left _ _ (Attr.sizeOf_children_lt a)

/-- The `for i, child := range a.Children` loop of `prune`, which calls
`a.Children = slices.Delete(a.Children, i, i+1)` for empty children while
iterating.  `range` captures the slice length once, so the loop performs
`len(orig)` steps over the shared backing array; after `d` in-loop deletions
slot `i` holds the element originally at index `i + d` as long as
`i < len(a.Children) = len(orig) - d`, and a cleared (nil) slot otherwise
(Go 1.22+ `slices.Delete` zeroes vacated slots), on which `child.empty()`
panics with a nil dereference — modelled by `none`. -/
def pruneChildrenGo (orig : List Attr) (i d : Nat) : Option (List Attr) :=
  if h1 : i < orig.length then
    if h2 : i < orig.length - d then
      let c := orig.get ⟨i + d, by omega⟩
      if c.empty then pruneChildrenGo orig (i + 1) (d + 1)
      else
        match prune c with
        | none => none
        | some c' => (pruneChildrenGo orig (i + 1) d).map fun rest => c' :: rest
    else none
  else some []
termination_by (sizeOf orig, orig.length - i)
decreasing_by
  · exact Prod.Lex.right _ (by omega)
  · simp_wf
    exact Prod.Lex.left _ _ (List.sizeOf_lt_of_mem (orig.get_mem _ _))
  · exact Prod.Lex.right _ (by omega)

end

/-- Structural characterization of the `prune` loop (proved equivalent to
`pruneChildrenGo` below, see `prune_eq_pruneRest`): children are processed
left to right; a non-empty child is pruned recursively; an empty child in the
last position is dropped (the loop ends right after its deletion); an empty
child in any earlier position causes a later loop step to read a cleared slot
and panic (`none`). -/
def pruneRest : List Attr → Option (List Attr)
  | [] => some []
  | c :: rest =>
    if c.empty then (if rest.isEmpty then some [] else none)
    else (prune c).bind fun c' => (pruneRest rest).map fun rest' => c' :: rest'


/-- `Options` from `easyslog.go`.  `Level` is a `slog.Leveler` interface
value: `none` models a nil interface (whose `Level()` call panics), `some m`
models a concrete level `m` (`slog.Level` values are integers; `LevelInfo`
is `0`, `LevelDebug` is `-4`). -/
structure Options where
  Level : Option Int

/-- The handler state of `EasySlog` from `easyslog.go`.  The `writer`,
`formatter` and `mu` fields are shared references to external collaborators
and carry no tree state; they are passed to `handle` explicitly.  The `attrs`
field of the Go struct is never read by any code path and is omitted. -/
structure EasySlog where
  root : Attr
  groupIndices : List Nat
  leveler : Option Int

/-- `New(w, formatter, opts)` from `easyslog.go`: a nil `opts` is replaced by
`&Options{Level: slog.LevelInfo}` (`LevelInfo = 0`); the root is the synthetic
node `&Attr{Key: "", Value: slog.AnyValue(nil), Children: []}`. -/
def new (opts : Option Options) : EasySlog :=
  let opts' : Options :=
    match opts with
    | none => ⟨some 0⟩
    | some o => o
  { root := ⟨"", .vnil, []⟩, groupIndices := [], leveler := opts'.Level }

/-- `Enabled(ctx, level)` from `easyslog.go`: `level >= handler.leveler.Level()`.
Calling `Level()` on a nil `slog.Leveler` interface panics (`none`). -/
def enabled (h : EasySlog) (level : Int) : Option Bool :=
  h.leveler.map fun m => decide (m ≤ level)

/-- `getCurrentGroup(root)` from `easyslog.go`: starting at `root`, follow
`group = group.Children[i]` for each `i` in `handler.groupIndices`.  An
out-of-range index panics (`none`). -/
def getCurrentGroup : Attr → List Nat → Option Attr
  | g, [] => some g
  | g, i :: rest => (g.children.get? i).bind fun c => getCurrentGroup c rest

/-- Apply an in-place mutation of the node reached by `getCurrentGroup` as a
functional update of the (cloned) tree: every node of the easyslog tree has a
single parent, so mutating the node at a `groupIndices` path is exactly the
functional update at that path.  An out-of-range index panics (`none`). -/
def updateAt : Attr → List Nat → (Attr → Attr) → Option Attr
  | t, [], f => some (f t)
  | t, i :: rest, f =>
    (t.children.get? i).bind fun c =>
      (updateAt c rest f).map fun c' => ⟨t.key, t.value, t.children.set i c'⟩

/-- `WithAttrs(slogAttrs)` from `easyslog.go`: clone the root, then for each
attribute whose `Value.Any()` is not nil, `parseValue` it into the current
group of the clone.  The new handler shares `writer`/`formatter`/`leveler`/
`mu` and keeps the same `groupIndices`. -/
def withAttrs (h : EasySlog) (attrs : List SlogAttr) : Option EasySlog :=
  (updateAt h.root h.groupIndices (fun g =>
      attrs.foldl (fun p a => if a.2.anyIsNil then p else parseValue a p) g)).map
    fun root' => { h with root := root' }

/-- `WithGroup(name)` from `easyslog.go`: an empty name returns the handler
itself unchanged; otherwise clone the root, append
`&Attr{Key: name, Value: slog.AnyValue(nil), Children: []}` to the current
group's children, and extend `groupIndices` with the new child's index
(`len(currentGroup.Children) - 1` after the append). -/
def withGroup (h : EasySlog) (name : String) : Option EasySlog :=
  if name = "" then some h
  else
    (getCurrentGroup h.root h.groupIndices).bind fun cur =>
      (updateAt h.root h.groupIndices (fun g => g.push ⟨name, .vnil, []⟩)).map
        fun root' =>
          { h with root := root',
                   groupIndices := h.groupIndices ++ [cur.children.length] }

/-- A `slog.Record` as seen by `Handle`: timestamp, level, PC, message, and
the event's own attributes (iterated by `r.Attrs`). -/
structure LogEvent where
  time : Int
  level : Int
  pc : Nat
  message : String
  attrs : List SlogAttr

/-- `easyslog.Record` from `easyslog.go`: what `Handle` passes to the
`Formatter`.  `attrs` is the (pruned) list of top-level children of the root. -/
structure Record where
  time : Int
  level : Int
  pc : Nat
  message : String
  attrs : List Attr

/-- The record-building part of `Handle(ctx, r)` from `easyslog.go`: clone the
root, `parseValue` each event attribute into the current group of the clone,
`prune` the clone, and collect its top-level children. -/
def handleRecord (h : EasySlog) (ev : LogEvent) : Option Record :=
  (updateAt h.root h.groupIndices (fun g => parseList ev.attrs g)).bind fun t =>
    (prune t).map fun t' =>
      { time := ev.time, level := ev.level, pc := ev.pc, message := ev.message,
        attrs := t'.children }

/-- `Handle(ctx, r)` from `easyslog.go`, with the handler's `Formatter` and
`io.Writer` passed explicitly (`fmt` models `formatter.Format` rendering into
the private buffer, `wr` models `io.Copy(handler.writer, &buf)`).  The result
pairs `Handle`'s return value with the bytes handed to the writer (`none` when
nothing is written).  On formatter error the error is returned and nothing is
written; on success a single newline byte (10) is appended to the buffer and
the whole buffer is written, the write's error being returned. -/
def handle {E : Type} (fmt : Record → Except E (List Nat))
    (wr : List Nat → Except E Unit) (h : EasySlog) (ev : LogEvent) :
    Option (Except E Unit × Option (List Nat)) :=
  (handleRecord h ev).map fun rec =>
    match fmt rec with
    | .error e => (.error e, none)
    | .ok bs => (wr (bs ++ [10]), some (bs ++ [10]))

/-!
## Pointer-level model

The pure model above represents each `*Attr` tree as a value, which cannot
express the aliasing questions behind the clone-isolation property: whether a
derived handler's tree shares mutable structure with its parent's.  The
following model makes pointers explicit: a `Heap` is a list of allocated
`Node`s, an address is an index into it, and a node's children are addresses.
Allocation appends to the heap; in-place mutation is `List.set`.  Addresses
are a modelling artifact — only the pointer graph matters — so allocations
inside `clone` may be ordered children-first (the Go code allocates the parent
struct first and then fills its children slots; both orders produce the same
graph).  Recursions that follow the heap (`readout`, `cloneF`, `pruneH`) carry
explicit fuel, since an arbitrary heap may contain cycles; the heaps built by
the handler are acyclic and the theorems request enough fuel via hypotheses.
-/

/-- A heap node: the contents of one allocated `Attr` struct, with the
`Children` slice holding heap addresses. -/
structure Node where
  key : String
  value : SVal
  children : List Nat

/-- The heap: node at address `i` is entry `i`; allocation appends. -/
abbrev Heap := List Node

/-- In-place update of the node at address `a` (panic — `none` — if the
address is unallocated). -/
def updateNode (h : Heap) (a : Nat) (f : Node → Node) : Option Heap :=
  (h.get? a).map fun n => h.set a (f n)

mutual

/-- Read the tree rooted at address `a` out of the heap as a pure `Attr`
(the observable contents of the pointer structure).  Fuel bounds the depth. -/
def readout : Nat → Heap → Nat → Option Attr
  | 0, _, _ => none
  | f + 1, h, a =>
    (h.get? a).bind fun n =>
      (readoutL f h n.children).map fun ts => ⟨n.key, n.value, ts⟩
termination_by f => (f, 0)
decreasing_by exact Prod.Lex.left _ _ (by omega)

/-- Read out a list of sibling addresses. -/
def readoutL : Nat → Heap → List Nat → Option (List Attr)
  | _, _, [] => some []
  | f, h, a :: rest =>
    (readout f h a).bind fun t => (readoutL f h rest).map fun ts => t :: ts
termination_by f _ as => (f, as.length + 1)
decreasing_by
  · exact Prod.Lex.right _ (by omega)
  · exact Prod.Lex.right _ (by simp [List.length_cons])

end

mutual

/-- `(a *Attr) clone()` from `attr.go`, on the heap: allocate a fresh copy of
every node of the tree at `a`; the copy shares no address with any existing
structure.  Returns the extended heap and the address of the copy. -/
def cloneF : Nat → Heap → Nat → Option (Heap × Nat)
  | 0, _, _ => none
  | f + 1, h, a =>
    (h.get? a).bind fun n =>
      (cloneListF f h n.children).map fun p =>
        (p.1 ++ [⟨n.key, n.value, p.2⟩], p.1.length)
termination_by f => (f, 0)
decreasing_by exact Prod.Lex.left _ _ (by omega)

/-- Clone a list of child addresses left to right, threading the heap. -/
def cloneListF : Nat → Heap → List Nat → Option (Heap × List Nat)
  | _, h, [] => some (h, [])
  | f, h, a :: rest =>
    (cloneF f h a).bind fun p =>
      (cloneListF f p.1 rest).map fun q => (q.1, p.2 :: q.2)
termination_by f _ as => (f, as.length + 1)
decreasing_by
  · exact Prod.Lex.right _ (by omega)
  · exact Prod.Lex.right _ (by simp [List.length_cons])

end

/-- `getCurrentGroup(root)` on the heap: follow `group = group.Children[i]`
for each index. -/
def getCurrentGroupH (h : Heap) : Nat → List Nat → Option Nat
  | g, [] => some g
  | g, i :: rest =>
    (h.get? g).bind fun n =>
      (n.children.get? i).bind fun c => getCurrentGroupH h c rest

mutual

/-- `parseValue(a, parent)` on the heap: the same control flow as the pure
`parseValue`, with explicit allocation (append to the heap) and in-place
mutation of the parent's children slice.  For a named group the fresh group
node is allocated before its members are parsed into it, exactly as in Go;
when it ends up childless it stays allocated but unreferenced (garbage). -/
def parseValueH : SlogAttr → Nat → Heap → Option Heap
  | (k, v), p, h =>
    if !v.isGroup && v.anyIsNil then some h
    else if !v.isGroup then
      updateNode (h ++ [⟨k, v.resolve, []⟩]) p fun n =>
        ⟨n.key, n.value, n.children ++ [h.length]⟩
    else if k = "" then parseListH v.group p h
    else
      (parseListH v.group h.length (h ++ [⟨k, .vnil, []⟩])).bind fun h2 =>
        (h2.get? h.length).bind fun gn =>
          if gn.children.isEmpty then some h2
          else updateNode h2 p fun n => ⟨n.key, n.value, n.children ++ [h.length]⟩
termination_by a _ _ => sizeOf a.2 + 1
decreasing_by
  all_goals have := SVal.sizeOf_group_le v
  all_goals simp_wf
  all_goals omega

/-- The member loop of `parseValueH`. -/
def parseListH : List SlogAttr → Nat → Heap → Option Heap
  | [], _, h => some h
  | a :: rest, p, h => (parseValueH a p h).bind fun h1 => parseListH rest p h1
termination_by as _ _ => sizeOf as
decreasing_by
  all_goals simp_wf
  all_goals cases a
  all_goals simp
  all_goals omega

end

mutual

/-- `prune(a *Attr)` on the heap: run the deletion loop over the node's
captured children slice, then store the surviving children back into the
node. -/
def pruneH : Nat → Nat → Heap → Option Heap
  | 0, _, _ => none
  | f + 1, r, h =>
    (h.get? r).bind fun n =>
      (pruneLoopH f n.children 0 0 h).bind fun p =>
        updateNode p.2 r fun m => ⟨m.key, m.value, p.1⟩
termination_by f => (f, 0)
decreasing_by exact Prod.Lex.left _ _ (by omega)

/-- The `for i, child := range a.Children` loop of `prune`, on the heap: the
same captured-slice index arithmetic as `pruneChildrenGo` (slot `i` holds the
address originally at `i + d` while `i < len - d`, and a cleared slot —
panic, `none` — afterwards), with `child.empty()` reading the current heap
and `prune(child)` mutating it in place.  Returns the surviving children (in
order) and the resulting heap. -/
def pruneLoopH : Nat → List Nat → Nat → Nat → Heap → Option (List Nat × Heap)
  | f, orig, i, d, h =>
    if h1 : i < orig.length then
      if h2 : i < orig.length - d then
        let c := orig.get ⟨i + d, by omega⟩
        (h.get? c).bind fun cn =>
          if cn.value.anyIsNil && cn.children.isEmpty then
            pruneLoopH f orig (i + 1) (d + 1) h
          else
            (pruneH f c h).bind fun h2 =>
              (pruneLoopH f orig (i + 1) d h2).map fun p => (c :: p.1, p.2)
      else none
    else some ([], h)
termination_by f orig i _ _ => (f, orig.length - i + 1)
decreasing_by
  · exact Prod.Lex.right _ (by omega)
  · exact Prod.Lex.right _ (by omega)
  · exact Prod.Lex.right _ (by omega)

end

/-- The handler state of `EasySlog`, pointer-level: the root is a heap
address; `groupIndices` and `leveler` are plain values stored in the struct. -/
structure StateH where
  root : Nat
  groupIndices : List Nat
  leveler : Option Int

/-- `New` on the heap: allocate the synthetic root node. -/
def newH (h : Heap) (opts : Option Options) : StateH × Heap :=
  ({ root := h.length, groupIndices := [],
     leveler := match opts with | none => some 0 | some o => o.Level },
   h ++ [⟨"", .vnil, []⟩])

/-- The `for _, attr := range slogAttrs` loop of `WithAttrs`: skip attributes
with nil `Value.Any()`, otherwise `parseValue(attr, getCurrentGroup(root))` —
the current group is re-resolved from the cloned root on every iteration,
as in the Go code. -/
def withAttrsLoopH : List SlogAttr → Nat → List Nat → Heap → Option Heap
  | [], _, _, h => some h
  | a :: rest, r, idx, h =>
    if a.2.anyIsNil then withAttrsLoopH rest r idx h
    else
      (getCurrentGroupH h r idx).bind fun p =>
        (parseValueH a p h).bind fun h1 => withAttrsLoopH rest r idx h1

/-- `WithAttrs(slogAttrs)` on the heap: clone the root, parse the attributes
into the clone's current group, return the new state (same `groupIndices`,
same `leveler`) and the grown heap. -/
def withAttrsH (h : Heap) (S : StateH) (attrs : List SlogAttr) :
    Option (StateH × Heap) :=
  (cloneF h.length h S.root).bind fun c =>
    (withAttrsLoopH attrs c.2 S.groupIndices c.1).map fun h2 =>
      ({ S with root := c.2 }, h2)

/-- `WithGroup(name)` on the heap: empty name returns the same state and
heap; otherwise allocate the new group node, clone the root, append the group
node's address to the clone's current group, and extend `groupIndices` with
its index. -/
def withGroupH (h : Heap) (S : StateH) (name : String) :
    Option (StateH × Heap) :=
  if name = "" then some (S, h)
  else
    (cloneF (h.length + 1) (h ++ [⟨name, .vnil, []⟩]) S.root).bind fun c =>
      (getCurrentGroupH c.1 c.2 S.groupIndices).bind fun p =>
        (c.1.get? p).bind fun pn =>
          (updateNode c.1 p fun n =>
              ⟨n.key, n.value, n.children ++ [h.length]⟩).map fun h2 =>
            ({ S with root := c.2,
                      groupIndices := S.groupIndices ++ [pn.children.length] },
             h2)

/-- `Handle` on the heap, up to the `Record` handed to the Formatter: clone
the root, parse the event's attributes into the clone's current group, prune
the clone, and read the pruned clone's top-level children out of the heap. -/
def handleH (h : Heap) (S : StateH) (ev : LogEvent) : Option (Record × Heap) :=
  (cloneF h.length h S.root).bind fun c =>
    (getCurrentGroupH c.1 c.2 S.groupIndices).bind fun p =>
      (parseListH ev.attrs p c.1).bind fun h2 =>
        (pruneH h2.length c.2 h2).bind fun h3 =>
          (h3.get? c.2).bind fun rn =>
            (readoutL h3.length h3 rn.children).map fun ts =>
              (⟨ev.time, ev.level, ev.pc, ev.message, ts⟩, h3)

/-- A derivation or `Handle` call performed on some handler state. -/
inductive OpH : Type where
  | attrs (attrs : List SlogAttr) : OpH
  | group (name : String) : OpH
  | handleEv (ev : LogEvent) : OpH

/-- Apply an operation to a state, transforming the shared heap. -/
def applyOp : OpH → StateH → Heap → Option (StateH × Heap)
  | .attrs as, S, h => withAttrsH h S as
  | .group n, S, h => withGroupH h S n
  | .handleEv ev, S, h => (handleH h S ev).map fun p => (S, p.2)

/-- The heap evolutions reachable by performing any sequence of operations on
any handler states (derived handlers, siblings, the original — anything). -/
inductive Steps : Heap → Heap → Prop
  | refl (h : Heap) : Steps h h
  | tail {h1 h2 h3 : Heap} (hs : Steps h1 h2) (T T' : StateH) (op : OpH)
      (happ : applyOp op T h2 = some (T', h3)) : Steps h1 h3

/-- Heaps `h` and `h'` have identical contents at every address below `b`:
the portion of the heap below `b` is untouched. -/
def AgreeBelow (b : Nat) (h h' : Heap) : Prop :=
  ∀ i, i < b → h'.get? i = h.get? i

/-- Every node allocated at or above `b` only points (via its children) to
addresses at or above `b`: the region above `b` is self-contained and never
reaches down into the protected region below `b`. -/
def ClosedAbove (b : Nat) (h : Heap) : Prop :=
  ∀ i n, b ≤ i → h.get? i = some n → ∀ c ∈ n.children, b ≤ c

/-- Once a deletion has happened (`1 ≤ d`), any loop continuation that has
steps left reads a cleared slot at the latest at step `len - 1` and panics. -/
theorem pruneChildrenGo_stale (orig : List Attr) (i d : Nat) (hd : 1 ≤ d)
    (hi : i < orig.length) : pruneChildrenGo orig i d = none := by
  rw [pruneChildrenGo.eq_def]
  rw [dif_pos hi]
  by_cases h2 : i < orig.length - d
  · rw [dif_pos h2]
    by_cases hc : (orig.get ⟨i + d, by omega⟩).empty
    · rw [if_pos hc]
      exact pruneChildrenGo_stale orig (i + 1) (d + 1) (by omega) (by omega)
    · rw [if_neg hc]
      cases hp : prune (orig.get ⟨i + d, by omega⟩) with
      | none => rfl
      | some c' =>
          rw [pruneChildrenGo_stale orig (i + 1) d hd (by omega)]
          rfl
  · rw [dif_neg h2]
termination_by orig.length - i

/-- The `prune` loop, started at step `i` with no deletions yet, behaves as
`pruneRest` on the remaining children. -/
theorem pruneChildrenGo_eq_pruneRest (orig : List Attr) (i : Nat)
    (hi : i ≤ orig.length) :
    pruneChildrenGo orig i 0 = pruneRest (orig.drop i) := by
  rw [pruneChildrenGo.eq_def]
  by_cases h1 : i < orig.length
  · rw [dif_pos h1, dif_pos (by omega : i < orig.length - 0)]
    have hdrop : orig.drop i = orig.get ⟨i, h1⟩ :: orig.drop (i + 1) :=
      List.drop_eq_get_cons h1
    have hget : orig.get ⟨i + 0, by omega⟩ = orig.get ⟨i, h1⟩ := by
      congr 1
    rw [hget, hdrop]
    by_cases hc : (orig.get ⟨i, h1⟩).empty
    · rw [if_pos hc]
      unfold pruneRest
      rw [if_pos hc]
      by_cases hlast : i + 1 < orig.length
      · rw [pruneChildrenGo_stale orig (i + 1) 1 le_rfl hlast]
        have : (orig.drop (i + 1)).isEmpty = false := by
          cases h : orig.drop (i + 1) with
          | nil =>
              have := congrArg List.length h
              simp [List.length_drop] at this
              omega
          | cons x xs => rfl
        rw [this]
        rfl
      · have hien : i + 1 = orig.length := by omega
        rw [pruneChildrenGo.eq_def, dif_neg (by omega : ¬ i + 1 < orig.length)]
        have hnil : orig.drop (i + 1) = [] := List.drop_eq_nil_of_le (by omega)
        rw [hnil]
        rfl
    · rw [if_neg hc]
      unfold pruneRest
      rw [if_neg hc]
      rw [pruneChildrenGo_eq_pruneRest orig (i + 1) (by omega)]
      cases prune (orig.get ⟨i, h1⟩) with
      | none => rfl
      | some c' => rfl
  · rw [dif_neg h1]
    have : orig.drop i = [] := List.drop_eq_nil_of_le (by omega)
    rw [this]
    rfl
termination_by orig.length - i

/-- `prune` in terms of the structural `pruneRest`. -/
theorem prune_eq_pruneRest (a : Attr) :
    prune a = (pruneRest a.children).map fun cs => ⟨a.key, a.value, cs⟩ := by
  rw [prune.eq_def, pruneChildrenGo_eq_pruneRest a.children 0 (by omega)]
  rfl

/-- C1: the claim is violated by the code.  After `WithGroup("a")` then
`WithGroup("b")`, `Handle` on an event with no attributes passes the
Formatter a Record whose attribute list is exactly the group node `"a"` with
no children — a node on which `empty()` returns true.  `prune` removes the
empty leaf `"b"` from `"a"`'s children, but the single top-down pass never
revisits `"a"`, which has become empty. -/
theorem C1_empty_group_reaches_formatter :
    ((withGroup (new none) "a").bind fun s1 =>
      (withGroup s1 "b").bind fun s2 =>
        handleRecord s2 ⟨0, 0, 0, "m", []⟩) =
        some ⟨0, 0, 0, "m", [⟨"a", .vnil, []⟩]⟩
    ∧ Attr.empty ⟨"a", .vnil, []⟩ = true := by
  constructor
  · simp [new, withGroup, getCurrentGroup, updateAt, handleRecord, parseList,
      prune_eq_pruneRest, pruneRest, Attr.push, Attr.empty, SVal.anyIsNil]
  · rfl

/-- C2 counterexample: with absent configuration the handler does NOT handle
everything: at level -4 (`slog.LevelDebug`), strictly below the default Info
threshold, `Enabled` returns false. -/
theorem C2_counterexample_default_not_most_permissive :
    enabled (new none) (-4) = some false := rfl

/-- C2 (amended): when `New` is called with a nil options object the severity
threshold defaults to `slog.LevelInfo` (level 0), slog's conventional default,
not to the most permissive one: `Enabled` returns true exactly for levels
`≥ 0`. -/
theorem C2_default_level_is_info (l : Int) :
    enabled (new none) l = some (decide (0 ≤ l)) := rfl

/-- C4: `WithGroup("")` is the identity: it returns the input handler state
itself (the Go code returns the very same handler pointer), hence the same
tree structure, the same insertion point, and the same behaviour under
`Enabled`, `WithAttrs`, `WithGroup` and `Handle`. -/
theorem C4_withGroup_empty_name_identity (h : EasySlog) :
    withGroup h "" = some h
    ∧ (∀ l, (withGroup h "").map (enabled · l) = some (enabled h l))
    ∧ (∀ attrs, (withGroup h "").bind (withAttrs · attrs) = withAttrs h attrs)
    ∧ (∀ n, (withGroup h "").bind (withGroup · n) = withGroup h n)
    ∧ (∀ ev, (withGroup h "").bind (handleRecord · ev) = handleRecord h ev) :=
  ⟨rfl, fun _ => rfl, fun _ => rfl, fun _ => rfl, fun _ => rfl⟩

/-- C5: attaching an anonymous group (empty key) at any insertion point of any
tree is the same as attaching its children directly at that point, for every
child list; and attaching the list `[a, b]` is attaching `a` then `b`. -/
theorem C5_anonymous_group_flattening (t : Attr) (P : List Nat)
    (cs : List SlogAttr) :
    updateAt t P (parseValue ("", .vgroup cs)) = updateAt t P (parseList cs)
    ∧ ∀ (a b : SlogAttr) (n : Attr),
        parseList [a, b] n = parseValue b (parseValue a n) := by
  constructor
  · have hpt : ∀ n, parseValue ("", .vgroup cs) n = parseList cs n := by
      intro n
      simp [parseValue, SVal.isGroup, SVal.anyIsNil, SVal.group]
    exact congrArg (updateAt t P) (funext hpt)
  · intro a b n
    simp [parseList]

/-- C6 counterexample: the claim fails for lazily resolved values.  The
attribute `("k", vlazy vnil)` is a non-group attribute whose RESOLVED value is
the nil sentinel, yet attaching it changes the tree: `parseValue` (and the
skip check in `WithAttrs`) tests `Value.Any() == nil` on the unresolved value,
for which a `LogValuer` is not nil, and then appends a leaf carrying the
resolved (nil) value. -/
theorem C6_counterexample_lazy_nil_attached :
    (SVal.vlazy .vnil).isGroup = false
    ∧ (SVal.vlazy .vnil).resolve = .vnil
    ∧ parseValue ("k", .vlazy .vnil) ⟨"", .vnil, []⟩ =
        ⟨"", .vnil, [⟨"k", .vnil, []⟩]⟩
    ∧ (⟨"", .vnil, [⟨"k", .vnil, []⟩]⟩ : Attr) ≠ ⟨"", .vnil, []⟩
    ∧ (withAttrs (new none) [("k", .vlazy .vnil)]).map EasySlog.root =
        some ⟨"", .vnil, [⟨"k", .vnil, []⟩]⟩ := by
  refine ⟨rfl, rfl, ?_, ?_, ?_⟩
  · simp [parseValue, SVal.isGroup, SVal.anyIsNil, SVal.resolve, Attr.push]
  · simp
  · simp [withAttrs, new, updateAt, parseValue, SVal.isGroup, SVal.anyIsNil,
      SVal.resolve, Attr.push]

/-- C6 (amended): attaching is a structural no-op for every non-group
attribute whose UNRESOLVED value is the nil sentinel (`Value.Any() == nil`
before `Resolve`), both through `parseValue` (used for an event's attributes
in `Handle`) and through `WithAttrs`; an attribute whose value only resolves
to nil via `LogValuer` resolution is instead appended as an empty leaf. -/
theorem C6_nil_value_attach_noop (k : String) :
    (∀ t : Attr, parseValue (k, .vnil) t = t)
    ∧ (∀ (h : EasySlog) (attrs : List SlogAttr),
        withAttrs h ((k, .vnil) :: attrs) = withAttrs h attrs)
    ∧ (∀ (h : EasySlog) (ti l : Int) (pc : Nat) (m : String)
        (rest : List SlogAttr),
        handleRecord h ⟨ti, l, pc, m, (k, .vnil) :: rest⟩ =
          handleRecord h ⟨ti, l, pc, m, rest⟩) := by
  have hnoop : ∀ t : Attr, parseValue (k, .vnil) t = t := by
    intro t
    simp [parseValue, SVal.isGroup, SVal.anyIsNil]
  refine ⟨hnoop, ?_, ?_⟩
  · intro h attrs
    simp [withAttrs, SVal.anyIsNil]
  · intro h ti l pc m rest
    simp [handleRecord, parseList, hnoop]

/-- C7: a named group attribute adds a node to the parent exactly when the
recursive attachment of its members produced at least one child; with zero
children (e.g. all members nil-valued) the parent is returned unchanged. -/
theorem C7_named_group_attached_iff_nonempty (k : String) (cs : List SlogAttr)
    (parent : Attr) (hk : k ≠ "") :
    parseValue (k, .vgroup cs) parent =
      if (parseList cs ⟨k, .vnil, []⟩).children.isEmpty then parent
      else parent.push (parseList cs ⟨k, .vnil, []⟩) := by
  simp [parseValue, SVal.isGroup, SVal.anyIsNil, SVal.group, hk]

/-- Witness for C7: a named group of one nil-valued member adds nothing, while
a named group of one int-valued member adds the populated group node. -/
theorem C7_witness :
    parseValue ("g", .vgroup [("n", .vnil)]) ⟨"", .vnil, []⟩ = ⟨"", .vnil, []⟩
    ∧ parseValue ("g", .vgroup [("x", .vint 1)]) ⟨"", .vnil, []⟩ =
        ⟨"", .vnil, [⟨"g", .vnil, [⟨"x", .vint 1, []⟩]⟩]⟩ := by
  constructor
  · rw [C7_named_group_attached_iff_nonempty "g" [("n", .vnil)] ⟨"", .vnil, []⟩
      (by decide)]
    simp [parseList, parseValue, SVal.anyIsNil, SVal.isGroup]
  · rw [C7_named_group_attached_iff_nonempty "g" [("x", .vint 1)]
      ⟨"", .vnil, []⟩ (by decide)]
    simp [parseList, parseValue, SVal.anyIsNil, SVal.isGroup, SVal.resolve,
      Attr.push]

/-- C8: `WithGroup("a")`, `WithGroup("b")`, `WithAttrs([x=1])`, then `Handle`
of an event with no attributes produces a Record whose attribute list is
exactly group "a" containing exactly group "b" containing exactly the leaf
x=1, and nothing else. -/
theorem C8_group_path_correctness :
    ((withGroup (new none) "a").bind fun s1 =>
      (withGroup s1 "b").bind fun s2 =>
        (withAttrs s2 [("x", .vint 1)]).bind fun s3 =>
          handleRecord s3 ⟨5, 2, 7, "msg", []⟩) =
      some ⟨5, 2, 7, "msg",
        [⟨"a", .vnil, [⟨"b", .vnil, [⟨"x", .vint 1, []⟩]⟩]⟩]⟩ := by
  simp [new, withGroup, withAttrs, getCurrentGroup, updateAt, handleRecord,
    parseList, parseValue, prune_eq_pruneRest, pruneRest, Attr.push,
    Attr.empty, SVal.anyIsNil, SVal.isGroup, SVal.resolve]

/-- C9: if the Formatter fails, `Handle` returns that very error and nothing
reaches the sink; if it succeeds, exactly one newline byte is appended to the
formatter's output, that whole buffer is handed to the sink, and the sink's
result (error or not) is returned verbatim. -/
theorem C9_formatter_error_propagation {E : Type}
    (fmt : Record → Except E (List Nat)) (wr : List Nat → Except E Unit)
    (h : EasySlog) (ev : LogEvent) (rec : Record)
    (hrec : handleRecord h ev = some rec) :
    (∀ e, fmt rec = .error e → handle fmt wr h ev = some (.error e, none))
    ∧ (∀ bs, fmt rec = .ok bs →
        handle fmt wr h ev = some (wr (bs ++ [10]), some (bs ++ [10]))) := by
  constructor
  · intro e he
    simp [handle, hrec, he]
  · intro bs hbs
    simp [handle, hrec, hbs]

/-- Witness for C9: a failing formatter's error is returned with no write; a
formatter producing byte 65 results in the buffer `[65, 10]` being written. -/
theorem C9_witness :
    handle (fun _ => Except.error "boom") (fun _ => Except.ok ())
        (new none) ⟨0, 0, 0, "m", []⟩ = some (.error "boom", none)
    ∧ handle (E := String) (fun _ => .ok [65]) (fun _ => .ok ())
        (new none) ⟨0, 0, 0, "m", []⟩ = some (.ok (), some [65, 10]) := by
  have hrec : handleRecord (new none) ⟨0, 0, 0, "m", []⟩ =
      some ⟨0, 0, 0, "m", []⟩ := by
    simp [handleRecord, new, updateAt, parseList, prune_eq_pruneRest, pruneRest]
  constructor
  · exact (C9_formatter_error_propagation (fun _ => Except.error "boom")
      (fun _ => Except.ok ()) (new none) ⟨0, 0, 0, "m", []⟩ _ hrec).1 "boom" rfl
  · exact (C9_formatter_error_propagation (fun _ => Except.ok [65])
      (fun _ => Except.ok ()) (new none) ⟨0, 0, 0, "m", []⟩ _ hrec).2 [65] rfl

/-- C10: when `New` receives a non-nil `Options` whose `Level` is nil, the
handler's leveler stays nil and every `Enabled` call dereferences the nil
`slog.Leveler` interface and panics (`none`); no default is applied. -/
theorem C10_nil_level_panics :
    (new (some ⟨none⟩)).leveler = none
    ∧ ∀ l : Int, enabled (new (some ⟨none⟩)) l = none :=
  ⟨rfl, fun _ => rfl⟩

theorem closedAbove_length (h : Heap) : ClosedAbove h.length h := by
  intro i n hbi hget c _
  rw [List.get?_eq_none.mpr hbi] at hget
  cases hget

theorem agreeBelow_refl (b : Nat) (h : Heap) : AgreeBelow b h h :=
  fun _ _ => rfl

theorem agreeBelow_trans {b : Nat} {h1 h2 h3 : Heap}
    (a1 : AgreeBelow b h1 h2) (a2 : AgreeBelow b h2 h3) : AgreeBelow b h1 h3 :=
  fun i hi => (a2 i hi).trans (a1 i hi)

theorem agreeBelow_mono {b b' : Nat} {h h' : Heap} (hb : b' ≤ b)
    (ha : AgreeBelow b h h') : AgreeBelow b' h h' :=
  fun i hi => ha i (by omega)

theorem agreeBelow_append (b : Nat) (h tl : Heap) (hb : b ≤ h.length) :
    AgreeBelow b h (h ++ tl) :=
  fun _ hi => List.get?_append (by omega)

theorem get?_lt_length {h : Heap} {a : Nat} {n : Node}
    (hget : h.get? a = some n) : a < h.length := by
  rcases List.get?_eq_some.mp hget with ⟨hlt, _⟩
  exact hlt

mutual

/-- Reading a tree out of the heap only inspects addresses below `h.length`
(every successful lookup is in range), so any heap agreeing with `h` on that
region reads out the same tree. -/
theorem readout_agree {h h' : Heap} (ha : AgreeBelow h.length h h')
    (f : Nat) (a : Nat) (t : Attr) (hr : readout f h a = some t) :
    readout f h' a = some t := by
  match f with
  | 0 => simp [readout] at hr
  | f + 1 =>
    rw [readout] at hr ⊢
    cases hget : h.get? a with
    | none => rw [hget] at hr; simp at hr
    | some n =>
      rw [hget] at hr
      rw [ha a (get?_lt_length hget), hget]
      simp only [Option.some_bind] at hr ⊢
      cases hL : readoutL f h n.children with
      | none => rw [hL] at hr; simp at hr
      | some ts =>
        rw [readoutL_agree ha f n.children ts hL]
        rw [hL] at hr
        simpa using hr
termination_by (f, 0)
decreasing_by exact Prod.Lex.left _ _ (by omega)

theorem readoutL_agree {h h' : Heap} (ha : AgreeBelow h.length h h')
    (f : Nat) (as : List Nat) (ts : List Attr)
    (hr : readoutL f h as = some ts) : readoutL f h' as = some ts := by
  match as with
  | [] => simpa [readoutL] using hr
  | a :: rest =>
    rw [readoutL] at hr ⊢
    cases h1 : readout f h a with
    | none => rw [h1] at hr; simp at hr
    | some t =>
      rw [h1] at hr
      rw [readout_agree ha f a t h1]
      simp only [Option.some_bind] at hr ⊢
      cases h2 : readoutL f h rest with
      | none => rw [h2] at hr; simp at hr
      | some ts' =>
        rw [readoutL_agree ha f rest ts' h2]
        rw [h2] at hr
        simpa using hr
termination_by (f, as.length + 1)
decreasing_by
  · exact Prod.Lex.right _ (by omega)
  · exact Prod.Lex.right _ (by simp [List.length_cons])

end

theorem closedAbove_append_singleton {b : Nat} {h : Heap} {n : Node}
    (hc : ClosedAbove b h) (hn : ∀ c ∈ n.children, b ≤ c) :
    ClosedAbove b (h ++ [n]) := by
  intro i m hbi hget c hcm
  rcases Nat.lt_trichotomy i h.length with hi | hi | hi
  · rw [List.get?_append hi] at hget
    exact hc i m hbi hget c hcm
  · rw [hi, List.get?_concat_length] at hget
    cases hget
    exact hn c hcm
  · rw [List.get?_eq_none.mpr (by simp; omega)] at hget
    cases hget

theorem updateNode_spec {h h' : Heap} {p : Nat} {g : Node → Node}
    (hu : updateNode h p g = some h') :
    h'.length = h.length ∧ (∀ i, i ≠ p → h'.get? i = h.get? i)
    ∧ ∃ n, h.get? p = some n ∧ h'.get? p = some (g n) := by
  unfold updateNode at hu
  cases hget : h.get? p with
  | none => rw [hget] at hu; cases hu
  | some n =>
    rw [hget] at hu
    simp only [Option.map_some', Option.some.injEq] at hu
    subst hu
    refine ⟨List.length_set .., fun i hi => List.get?_set_ne _ _ (fun hpi => hi hpi.symm), n, rfl, ?_⟩
    exact List.get?_set_eq_of_lt _ (get?_lt_length hget)

/-- Updating a node at an address `≥ b` by appending a child address `≥ b`
keeps the region below `b` untouched and the region above `b` closed. -/
theorem closedAbove_updateNode_append {b : Nat} {h h' : Heap} {p newc : Nat}
    (hc : ClosedAbove b h) (hp : b ≤ p) (hnew : b ≤ newc)
    (hu : updateNode h p (fun n => ⟨n.key, n.value, n.children ++ [newc]⟩) =
      some h') :
    h'.length = h.length ∧ AgreeBelow b h h' ∧ ClosedAbove b h' := by
  obtain ⟨hlen, hne, n, hgn, hgp⟩ := updateNode_spec hu
  refine ⟨hlen, fun i hi => hne i (by omega), ?_⟩
  intro i m hbi hget c hcm
  by_cases hip : i = p
  · subst hip
    rw [hgp] at hget
    cases hget
    simp only [List.mem_append, List.mem_singleton] at hcm
    rcases hcm with hcm | hcm
    · exact hc i n hbi hgn c hcm
    · omega
  · rw [hne i hip] at hget
    exact hc i m hbi hget c hcm

mutual

/-- `cloneF` only allocates: the result heap extends the input heap, the new
root address is fresh (at or above the old heap length) and valid, and the
region above any `b ≤ h.length` stays closed. -/
theorem cloneF_spec {b f : Nat} {h h1 : Heap} {a a' : Nat}
    (hb : b ≤ h.length) (hc : ClosedAbove b h)
    (hcl : cloneF f h a = some (h1, a')) :
    (∃ tl, h1 = h ++ tl) ∧ h.length ≤ a' ∧ a' < h1.length ∧ ClosedAbove b h1 := by
  match f with
  | 0 => simp [cloneF] at hcl
  | f + 1 =>
    rw [cloneF] at hcl
    cases hget : h.get? a with
    | none => rw [hget] at hcl; cases hcl
    | some n =>
      rw [hget] at hcl
      simp only [Option.some_bind] at hcl
      cases hcs : cloneListF f h n.children with
      | none => rw [hcs] at hcl; cases hcl
      | some q =>
        obtain ⟨h2, cs⟩ := q
        rw [hcs] at hcl
        simp only [Option.map_some', Option.some.injEq, Prod.mk.injEq] at hcl
        obtain ⟨hcl1, hcl2⟩ := hcl
        obtain ⟨⟨tl, htl⟩, hcab, hmem⟩ := cloneListF_spec hb hc hcs
        subst hcl1
        subst hcl2
        refine ⟨⟨tl ++ [⟨n.key, n.value, cs⟩], by rw [htl, List.append_assoc]⟩,
          by rw [htl]; simp, by simp, ?_⟩
        refine closedAbove_append_singleton hcab ?_
        intro c hcm
        have := (hmem c hcm).1
        omega
termination_by (f, 0)
decreasing_by exact Prod.Lex.left _ _ (by omega)

/-- `cloneListF` only allocates; all returned addresses are fresh and valid. -/
theorem cloneListF_spec {b f : Nat} {h h1 : Heap} {as cs : List Nat}
    (hb : b ≤ h.length) (hc : ClosedAbove b h)
    (hcl : cloneListF f h as = some (h1, cs)) :
    (∃ tl, h1 = h ++ tl) ∧ ClosedAbove b h1
    ∧ ∀ c ∈ cs, h.length ≤ c ∧ c < h1.length := by
  match as with
  | [] =>
    rw [cloneListF] at hcl
    simp only [Option.some.injEq, Prod.mk.injEq] at hcl
    obtain ⟨h1eq, cseq⟩ := hcl
    subst h1eq
    subst cseq
    exact ⟨⟨[], by simp⟩, hc, by simp⟩
  | a :: rest =>
    rw [cloneListF] at hcl
    cases hA : cloneF f h a with
    | none => rw [hA] at hcl; cases hcl
    | some q =>
      obtain ⟨hA1, a'⟩ := q
      rw [hA] at hcl
      simp only [Option.some_bind] at hcl
      cases hB : cloneListF f hA1 rest with
      | none => rw [hB] at hcl; cases hcl
      | some q2 =>
        obtain ⟨h2, cs'⟩ := q2
        rw [hB] at hcl
        simp only [Option.map_some', Option.some.injEq, Prod.mk.injEq] at hcl
        obtain ⟨hcl1, hcl2⟩ := hcl
        subst hcl1
        subst hcl2
        obtain ⟨⟨t1, ht1⟩, hlenA, haltA, hcabA⟩ := cloneF_spec hb hc hA
        have hbA : b ≤ hA1.length := by rw [ht1]; simp; omega
        obtain ⟨⟨t2, ht2⟩, hcabB, hmemB⟩ := cloneListF_spec hbA hcabA hB
        have hlenAB : hA1.length ≤ h2.length := by rw [ht2]; simp
        refine ⟨⟨t1 ++ t2, by rw [ht2, ht1, List.append_assoc]⟩, hcabB, ?_⟩
        intro c hcm
        rcases List.mem_cons.mp hcm with hcm | hcm
        · subst hcm
          constructor
          · exact hlenA
          · omega
        · have := hmemB c hcm
          have hlen1 : h.length ≤ hA1.length := by rw [ht1]; simp
          constructor
          · omega
          · omega
termination_by (f, as.length + 1)
decreasing_by
  · exact Prod.Lex.right _ (by omega)
  · exact Prod.Lex.right _ (by simp [List.length_cons])

end

/-- Starting at an address `≥ b` in a heap whose region above `b` is closed,
`getCurrentGroup` stays at addresses `≥ b`. -/
theorem getCurrentGroupH_spec {b : Nat} {h : Heap} {idx : List Nat}
    {r p : Nat} (hc : ClosedAbove b h) (hr : b ≤ r)
    (hw : getCurrentGroupH h r idx = some p) : b ≤ p := by
  induction idx generalizing r with
  | nil =>
    rw [getCurrentGroupH] at hw
    cases hw
    exact hr
  | cons i rest ih =>
    rw [getCurrentGroupH] at hw
    cases hget : h.get? r with
    | none => rw [hget] at hw; cases hw
    | some n =>
      rw [hget] at hw
      simp only [Option.some_bind] at hw
      cases hci : n.children.get? i with
      | none => rw [hci] at hw; cases hw
      | some c =>
        rw [hci] at hw
        simp only [Option.some_bind] at hw
        exact ih (hc r n hr hget c (List.get?_mem hci)) hw

mutual

/-- `parseValueH` at a parent address `≥ b` only allocates fresh nodes and
mutates nodes at addresses `≥ b`: the heap below `b` is untouched and the
region above `b` stays closed. -/
theorem parseValueH_spec {k : String} {v : SVal} {p b : Nat} {h h' : Heap}
    (hb : b ≤ h.length) (hp : b ≤ p) (hc : ClosedAbove b h)
    (hs : parseValueH (k, v) p h = some h') :
    h.length ≤ h'.length ∧ AgreeBelow b h h' ∧ ClosedAbove b h' := by
  rw [parseValueH] at hs
  cases hg : v.isGroup with
  | false =>
    cases hnil : v.anyIsNil with
    | true =>
      simp only [hg, hnil, Bool.not_false, Bool.and_self, if_true] at hs
      cases hs
      exact ⟨le_refl _, agreeBelow_refl _ _, hc⟩
    | false =>
      simp only [hg, hnil, Bool.not_false, Bool.and_false, Bool.false_eq_true,
        if_false, if_true] at hs
      have hc0 : ClosedAbove b (h ++ [⟨k, v.resolve, []⟩]) :=
        closedAbove_append_singleton hc (by intro c hcm; simp at hcm)
      obtain ⟨hlen, hagree, hclosed⟩ :=
        closedAbove_updateNode_append hc0 hp hb hs
      refine ⟨?_, agreeBelow_trans (agreeBelow_append b h _ hb) hagree, hclosed⟩
      rw [hlen]
      simp
  | true =>
    simp only [hg, Bool.not_true, Bool.false_and, Bool.false_eq_true, if_false] at hs
    by_cases hk : k = ""
    · rw [if_pos hk] at hs
      exact parseListH_spec hb hp hc hs
    · rw [if_neg hk] at hs
      cases hPL : parseListH v.group h.length (h ++ [⟨k, .vnil, []⟩]) with
      | none => rw [hPL] at hs; cases hs
      | some h2 =>
        rw [hPL] at hs
        simp only [Option.some_bind] at hs
        have hc0 : ClosedAbove b (h ++ [⟨k, SVal.vnil, []⟩]) :=
          closedAbove_append_singleton hc (by intro c hcm; simp at hcm)
        obtain ⟨hlen2, hagree2, hclosed2⟩ :=
          parseListH_spec (by simp; omega) hb hc0 hPL
        have hlen02 : h.length ≤ h2.length := by
          simp at hlen2
          omega
        have hagree02 : AgreeBelow b h h2 :=
          agreeBelow_trans (agreeBelow_append b h _ hb) hagree2
        cases hgn : h2.get? h.length with
        | none => rw [hgn] at hs; cases hs
        | some gn =>
          rw [hgn] at hs
          simp only [Option.some_bind] at hs
          by_cases hemp : gn.children.isEmpty
          · rw [if_pos hemp] at hs
            cases hs
            exact ⟨hlen02, hagree02, hclosed2⟩
          · rw [if_neg hemp] at hs
            obtain ⟨hlen3, hagree3, hclosed3⟩ :=
              closedAbove_updateNode_append hclosed2 hp hb hs
            refine ⟨by omega, agreeBelow_trans hagree02 hagree3, hclosed3⟩
termination_by sizeOf v + 1
decreasing_by
  all_goals have := SVal.sizeOf_group_le v
  all_goals simp_wf
  all_goals omega

/-- `parseListH` at a parent address `≥ b`: same frame property. -/
theorem parseListH_spec {as : List SlogAttr} {p b : Nat} {h h' : Heap}
    (hb : b ≤ h.length) (hp : b ≤ p) (hc : ClosedAbove b h)
    (hs : parseListH as p h = some h') :
    h.length ≤ h'.length ∧ AgreeBelow b h h' ∧ ClosedAbove b h' := by
  match as with
  | [] =>
    rw [parseListH] at hs
    cases hs
    exact ⟨le_refl _, agreeBelow_refl _ _, hc⟩
  | (k, v) :: rest =>
    rw [parseListH] at hs
    cases h1 : parseValueH (k, v) p h with
    | none => rw [h1] at hs; cases hs
    | some hA =>
      rw [h1] at hs
      simp only [Option.some_bind] at hs
      obtain ⟨l1, a1, c1⟩ := parseValueH_spec hb hp hc h1
      obtain ⟨l2, a2, c2⟩ := parseListH_spec (le_trans hb l1) hp c1 hs
      exact ⟨le_trans l1 l2, agreeBelow_trans a1 a2, c2⟩
termination_by sizeOf as
decreasing_by
  all_goals simp_wf
  all_goals omega

end

mutual

/-- `pruneH` at a root address `≥ b` only rewrites children lists of nodes at
addresses `≥ b` to sublists: the heap below `b` is untouched, the heap does
not shrink, and the region above `b` stays closed. -/
theorem pruneH_spec {f r b : Nat} {h h' : Heap}
    (hr : b ≤ r) (hc : ClosedAbove b h) (hs : pruneH f r h = some h') :
    h.length ≤ h'.length ∧ AgreeBelow b h h' ∧ ClosedAbove b h' := by
  match f with
  | 0 => simp [pruneH] at hs
  | f + 1 =>
    rw [pruneH] at hs
    cases hget : h.get? r with
    | none => rw [hget] at hs; cases hs
    | some n =>
      rw [hget] at hs
      simp only [Option.some_bind] at hs
      cases hloop : pruneLoopH f n.children 0 0 h with
      | none => rw [hloop] at hs; cases hs
      | some q =>
        obtain ⟨kept, h2⟩ := q
        rw [hloop] at hs
        simp only [Option.some_bind] at hs
        have horig : ∀ c ∈ n.children, b ≤ c := hc r n hr hget
        obtain ⟨l2, a2, c2, hkept⟩ := pruneLoopH_spec horig hc hloop
        obtain ⟨hlen, hne, m, hgm, hgp⟩ := updateNode_spec hs
        refine ⟨by omega,
          agreeBelow_trans a2 (fun i hi => hne i (by omega)), ?_⟩
        intro i mm hbi hget' c hcm
        by_cases hir : i = r
        · subst hir
          rw [hgp] at hget'
          cases hget'
          simp only at hcm
          exact horig c (hkept c hcm)
        · rw [hne i hir] at hget'
          exact c2 i mm hbi hget' c hcm
termination_by (f, 0)
decreasing_by exact Prod.Lex.left _ _ (by omega)

/-- The `prune` loop: frame property, and every surviving child address was
already among the node's children. -/
theorem pruneLoopH_spec {f : Nat} {orig : List Nat} {i d b : Nat}
    {h hOut : Heap} {kept : List Nat}
    (horig : ∀ c ∈ orig, b ≤ c) (hc : ClosedAbove b h)
    (hs : pruneLoopH f orig i d h = some (kept, hOut)) :
    h.length ≤ hOut.length ∧ AgreeBelow b h hOut ∧ ClosedAbove b hOut
    ∧ ∀ c ∈ kept, c ∈ orig := by
  rw [pruneLoopH] at hs
  by_cases h1 : i < orig.length
  · rw [dif_pos h1] at hs
    by_cases h2 : i < orig.length - d
    · rw [dif_pos h2] at hs
      simp only at hs
      have hmem : orig.get ⟨i + d, by omega⟩ ∈ orig := orig.get_mem _ _
      cases hcn : h.get? (orig.get ⟨i + d, by omega⟩) with
      | none => rw [hcn] at hs; cases hs
      | some cn =>
        rw [hcn] at hs
        simp only [Option.some_bind] at hs
        by_cases hemp : cn.value.anyIsNil && cn.children.isEmpty
        · rw [if_pos hemp] at hs
          exact pruneLoopH_spec horig hc hs
        · rw [if_neg hemp] at hs
          cases hpr : pruneH f (orig.get ⟨i + d, by omega⟩) h with
          | none => rw [hpr] at hs; cases hs
          | some hA =>
            rw [hpr] at hs
            simp only [Option.some_bind] at hs
            cases hloop : pruneLoopH f orig (i + 1) d hA with
            | none => rw [hloop] at hs; cases hs
            | some q =>
              obtain ⟨rest, hB⟩ := q
              rw [hloop] at hs
              simp only [Option.map_some', Option.some.injEq, Prod.mk.injEq] at hs
              obtain ⟨hk, hh⟩ := hs
              subst hk
              subst hh
              obtain ⟨l1, a1, c1⟩ := pruneH_spec (horig _ hmem) hc hpr
              obtain ⟨l2, a2, c2, hkept2⟩ := pruneLoopH_spec horig c1 hloop
              refine ⟨by omega, agreeBelow_trans a1 a2, c2, ?_⟩
              intro c hcm
              rcases List.mem_cons.mp hcm with hcm | hcm
              · subst hcm
                exact hmem
              · exact hkept2 c hcm
    · rw [dif_neg h2] at hs
      cases hs
  · rw [dif_neg h1] at hs
    simp only [Option.some.injEq, Prod.mk.injEq] at hs
    obtain ⟨hk, hh⟩ := hs
    subst hk
    subst hh
    exact ⟨le_refl _, agreeBelow_refl _ _, hc, by simp⟩
termination_by (f, orig.length - i + 1)
decreasing_by
  · exact Prod.Lex.right _ (by omega)
  · exact Prod.Lex.right _ (by omega)
  · exact Prod.Lex.right _ (by omega)

end

/-- The `WithAttrs` attribute loop: frame property. -/
theorem withAttrsLoopH_spec {as : List SlogAttr} {r : Nat} {idx : List Nat}
    {b : Nat} {h h' : Heap}
    (hb : b ≤ h.length) (hr : b ≤ r) (hc : ClosedAbove b h)
    (hs : withAttrsLoopH as r idx h = some h') :
    h.length ≤ h'.length ∧ AgreeBelow b h h' ∧ ClosedAbove b h' := by
  induction as generalizing h with
  | nil =>
    rw [withAttrsLoopH] at hs
    cases hs
    exact ⟨le_refl _, agreeBelow_refl _ _, hc⟩
  | cons a rest ih =>
    rw [withAttrsLoopH] at hs
    by_cases hnil : a.2.anyIsNil
    · rw [if_pos hnil] at hs
      exact ih hb hc hs
    · rw [if_neg hnil] at hs
      cases hw : getCurrentGroupH h r idx with
      | none => rw [hw] at hs; cases hs
      | some p =>
        rw [hw] at hs
        simp only [Option.some_bind] at hs
        have hp : b ≤ p := getCurrentGroupH_spec hc hr hw
        cases hpv : parseValueH a p h with
        | none => rw [hpv] at hs; cases hs
        | some hA =>
          rw [hpv] at hs
          simp only [Option.some_bind] at hs
          obtain ⟨l1, a1, c1⟩ := parseValueH_spec hb hp hc hpv
          obtain ⟨l2, a2, c2⟩ := ih (by omega) c1 hs
          exact ⟨by omega, agreeBelow_trans a1 a2, c2⟩

/-- `WithAttrs` never touches the pre-existing heap: every write lands in the
freshly cloned region. -/
theorem withAttrsH_frame {h h' : Heap} {S S' : StateH} {as : List SlogAttr}
    (hs : withAttrsH h S as = some (S', h')) :
    h.length ≤ h'.length ∧ AgreeBelow h.length h h' := by
  unfold withAttrsH at hs
  cases hcl : cloneF h.length h S.root with
  | none => rw [hcl] at hs; cases hs
  | some c =>
    obtain ⟨h1, r'⟩ := c
    rw [hcl] at hs
    simp only [Option.some_bind] at hs
    obtain ⟨⟨tl, htl⟩, hra, _, hcab⟩ :=
      cloneF_spec (le_refl h.length) (closedAbove_length h) hcl
    cases hloop : withAttrsLoopH as r' S.groupIndices h1 with
    | none => rw [hloop] at hs; cases hs
    | some h2 =>
      rw [hloop] at hs
      simp only [Option.map_some', Option.some.injEq, Prod.mk.injEq] at hs
      obtain ⟨_, hh⟩ := hs
      subst hh
      have hlen1 : h.length ≤ h1.length := by rw [htl]; simp
      obtain ⟨l2, a2, _⟩ := withAttrsLoopH_spec hlen1 hra hcab hloop
      refine ⟨by omega, ?_⟩
      have ha1 : AgreeBelow h.length h h1 := by
        rw [htl]
        exact agreeBelow_append _ _ _ (le_refl _)
      exact agreeBelow_trans ha1 a2

/-- `WithGroup` never touches the pre-existing heap. -/
theorem withGroupH_frame {h h' : Heap} {S S' : StateH} {name : String}
    (hs : withGroupH h S name = some (S', h')) :
    h.length ≤ h'.length ∧ AgreeBelow h.length h h' := by
  unfold withGroupH at hs
  by_cases hn : name = ""
  · rw [if_pos hn] at hs
    simp only [Option.some.injEq, Prod.mk.injEq] at hs
    obtain ⟨_, hh⟩ := hs
    subst hh
    exact ⟨le_refl _, agreeBelow_refl _ _⟩
  · rw [if_neg hn] at hs
    have hc0 : ClosedAbove h.length (h ++ [⟨name, SVal.vnil, []⟩]) :=
      closedAbove_append_singleton (closedAbove_length h)
        (by intro c hcm; simp at hcm)
    cases hcl : cloneF (h.length + 1) (h ++ [⟨name, SVal.vnil, []⟩]) S.root with
    | none => rw [hcl] at hs; cases hs
    | some c =>
      obtain ⟨h1, r'⟩ := c
      rw [hcl] at hs
      simp only [Option.some_bind] at hs
      obtain ⟨⟨tl, htl⟩, hra, _, hcab⟩ :=
        cloneF_spec (by simp) hc0 hcl
      have hlen01 : h.length + 1 ≤ h1.length := by
        rw [htl]
        simp
      cases hw : getCurrentGroupH h1 r' S.groupIndices with
      | none => rw [hw] at hs; cases hs
      | some p =>
        rw [hw] at hs
        simp only [Option.some_bind] at hs
        have hp : h.length ≤ p :=
          getCurrentGroupH_spec hcab (by simp at hra; omega) hw
        cases hpn : h1.get? p with
        | none => rw [hpn] at hs; cases hs
        | some pn =>
          rw [hpn] at hs
          simp only [Option.some_bind] at hs
          cases hu : updateNode h1 p
              (fun n => ⟨n.key, n.value, n.children ++ [h.length]⟩) with
          | none => rw [hu] at hs; cases hs
          | some h2 =>
            rw [hu] at hs
            simp only [Option.map_some', Option.some.injEq, Prod.mk.injEq] at hs
            obtain ⟨_, hh⟩ := hs
            subst hh
            obtain ⟨hlen3, hag3, _⟩ :=
              closedAbove_updateNode_append hcab hp (le_refl _) hu
            refine ⟨by omega, ?_⟩
            have ha0 : AgreeBelow h.length h (h ++ [⟨name, SVal.vnil, []⟩]) :=
              agreeBelow_append _ _ _ (le_refl _)
            have ha1 : AgreeBelow h.length (h ++ [⟨name, SVal.vnil, []⟩]) h1 := by
              rw [htl]
              exact agreeBelow_append _ _ _ (by simp)
            exact agreeBelow_trans (agreeBelow_trans ha0 ha1) hag3

/-- `Handle` never touches the pre-existing heap: it clones, then parses and
prunes entirely inside the cloned region. -/
theorem handleH_frame {h h' : Heap} {S : StateH} {ev : LogEvent} {rec : Record}
    (hs : handleH h S ev = some (rec, h')) :
    h.length ≤ h'.length ∧ AgreeBelow h.length h h' := by
  unfold handleH at hs
  cases hcl : cloneF h.length h S.root with
  | none => rw [hcl] at hs; cases hs
  | some c =>
    obtain ⟨h1, r'⟩ := c
    rw [hcl] at hs
    simp only [Option.some_bind] at hs
    obtain ⟨⟨tl, htl⟩, hra, _, hcab⟩ :=
      cloneF_spec (le_refl h.length) (closedAbove_length h) hcl
    have hlen1 : h.length ≤ h1.length := by rw [htl]; simp
    cases hw : getCurrentGroupH h1 r' S.groupIndices with
    | none => rw [hw] at hs; cases hs
    | some p =>
      rw [hw] at hs
      simp only [Option.some_bind] at hs
      have hp : h.length ≤ p := getCurrentGroupH_spec hcab hra hw
      cases hPL : parseListH ev.attrs p h1 with
      | none => rw [hPL] at hs; cases hs
      | some h2 =>
        rw [hPL] at hs
        simp only [Option.some_bind] at hs
        obtain ⟨l2, a2, c2⟩ := parseListH_spec hlen1 hp hcab hPL
        cases hpr : pruneH h2.length r' h2 with
        | none => rw [hpr] at hs; cases hs
        | some h3 =>
          rw [hpr] at hs
          simp only [Option.some_bind] at hs
          obtain ⟨l3, a3, _⟩ := pruneH_spec (by omega) c2 hpr
          cases hrn : h3.get? r' with
          | none => rw [hrn] at hs; cases hs
          | some rn =>
            rw [hrn] at hs
            simp only [Option.some_bind] at hs
            cases hro : readoutL h3.length h3 rn.children with
            | none => rw [hro] at hs; cases hs
            | some ts =>
              rw [hro] at hs
              simp only [Option.map_some', Option.some.injEq,
                Prod.mk.injEq] at hs
              obtain ⟨_, hh⟩ := hs
              subst hh
              refine ⟨by omega, ?_⟩
              have ha1 : AgreeBelow h.length h h1 := by
                rw [htl]
                exact agreeBelow_append _ _ _ (le_refl _)
              exact agreeBelow_trans ha1 (agreeBelow_trans a2 a3)

/-- Any single operation on any handler state leaves the pre-existing heap
untouched. -/
theorem applyOp_frame {op : OpH} {T T' : StateH} {h h' : Heap}
    (hs : applyOp op T h = some (T', h')) :
    h.length ≤ h'.length ∧ AgreeBelow h.length h h' := by
  cases op with
  | attrs as => exact withAttrsH_frame hs
  | group n => exact withGroupH_frame hs
  | handleEv ev =>
    simp only [applyOp] at hs
    cases hh : handleH h T ev with
    | none => rw [hh] at hs; cases hs
    | some q =>
      obtain ⟨rec, h2⟩ := q
      rw [hh] at hs
      simp only [Option.map_some', Option.some.injEq, Prod.mk.injEq] at hs
      obtain ⟨_, hh2⟩ := hs
      subst hh2
      exact handleH_frame hh

/-- Any sequence of operations on any handler states leaves the original heap
region untouched. -/
theorem steps_frame {h h' : Heap} (hs : Steps h h') :
    h.length ≤ h'.length ∧ AgreeBelow h.length h h' := by
  induction hs with
  | refl => exact ⟨le_refl _, agreeBelow_refl _ _⟩
  | tail hs T T' op happ ih =>
    obtain ⟨l12, a12⟩ := ih
    obtain ⟨l23, a23⟩ := applyOp_frame happ
    exact ⟨by omega, agreeBelow_trans a12 (agreeBelow_mono l12 a23)⟩

/-- C3: clone isolation.  Let `S` be any handler state whose tree reads out
(to any fuel) as `t` in heap `h`.  After any sequence of `WithAttrs`,
`WithGroup` or `Handle` operations performed on any states sharing the heap
(states derived from `S`, siblings, or `S` itself), `S`'s attribute tree
still reads out as exactly `t`, and consequently the `Record` a subsequent
`Handle` on `S` builds from that tree (and the `Enabled` answers computed
from `S`'s observed state) are also unchanged.  `S.groupIndices` and
`S.leveler` are immutable fields of the state value itself and appear
unchanged on both sides.  (Each operation clones the tree and writes only to
freshly allocated addresses — `steps_frame` — so the region of the heap the
original state can reach is bitwise untouched.) -/
theorem C3_clone_isolation {h h' : Heap} {S : StateH} {f : Nat} {t : Attr}
    (ht : readout f h S.root = some t) (hs : Steps h h') :
    readout f h' S.root = some t
    ∧ (∀ ev, (readout f h' S.root).bind
          (fun tr => handleRecord ⟨tr, S.groupIndices, S.leveler⟩ ev) =
        (readout f h S.root).bind
          (fun tr => handleRecord ⟨tr, S.groupIndices, S.leveler⟩ ev))
    ∧ (∀ l, (readout f h' S.root).map
          (fun tr => enabled ⟨tr, S.groupIndices, S.leveler⟩ l) =
        (readout f h S.root).map
          (fun tr => enabled ⟨tr, S.groupIndices, S.leveler⟩ l)) := by
  obtain ⟨hlen, hagree⟩ := steps_frame hs
  have hro := readout_agree hagree f S.root t ht
  refine ⟨hro, fun ev => by rw [hro, ht], fun l => by rw [hro, ht]⟩

/-- Witness for C3: starting from the heap of a fresh handler (state
`⟨0, [], some 0⟩`), one `WithGroup("g")` step grows the heap with the new
group node and the cloned root; the original state's tree still reads out as
the empty root. -/
theorem C3_witness :
    readout 1 [(⟨"", .vnil, []⟩ : Node)] 0 = some ⟨"", .vnil, []⟩
    ∧ readout 1 [(⟨"", .vnil, []⟩ : Node), ⟨"g", .vnil, []⟩, ⟨"", .vnil, [1]⟩]
        0 = some ⟨"", .vnil, []⟩ := by
  have h1 : readout 1 [(⟨"", .vnil, []⟩ : Node)] 0 = some ⟨"", .vnil, []⟩ := by
    simp [readout, readoutL]
  have hstep : Steps [(⟨"", .vnil, []⟩ : Node)]
      [(⟨"", .vnil, []⟩ : Node), ⟨"g", .vnil, []⟩, ⟨"", .vnil, [1]⟩] := by
    refine Steps.tail (Steps.refl _) ⟨0, [], some 0⟩ ⟨2, [0], some 0⟩
      (.group "g") ?_
    simp [applyOp, withGroupH, cloneF, cloneListF, getCurrentGroupH, updateNode]
  exact ⟨h1, (C3_clone_isolation (S := ⟨0, [], some 0⟩) h1 hstep).1⟩

end Easyslog

